import Mathlib

/-!
Shallow embedding of `arcade_queue` (src/src/lib.rs).

The Rust crate defines `Queue<'a> { game: &'a str, players: u8, queue: VecDeque<&'a str> }`
together with the operations `new`, `join`, `quit`, `nextone`, `nextone_to_back`,
`next_group`, `next_group_to_back`, `get_queue`, `format_queue`.

We embed the state as a structure over `String`/`Nat`/`List String` (the `u8`
bound on `players` is irrelevant to the control flow, which only tests
`players == 0`; where a claim quantifies over the group size we add the `u8`
range bound explicitly).  Methods that take `&mut self` become explicit
state-passing functions returning a pair of the Rust return value and the new
state; `Result<T, Error>` becomes `Except Error T`.
-/

/-- The two variants of the Rust `enum Error`, each carrying its message. -/
inductive Error where
  | TooLessPlayersError (msg : String)
  | AlreadyInQueueError (msg : String)
  deriving DecidableEq

deriving instance DecidableEq for Except

/-- The Rust `struct Queue<'a>`: game name, players per round, member queue. -/
structure Queue where
  game : String
  players : Nat
  queue : List String
  deriving DecidableEq

/-- `Queue::new`: errors when `players == 0`, else the empty queue. -/
def Queue.new (game : String) (players : Nat) : Except Error Queue :=
  if players == 0 then
    Except.error (Error.TooLessPlayersError "`players` should be at least 1")
  else
    Except.ok { game := game, players := players, queue := [] }

/-- `Queue::join`: appends `player` at the back unless it is already present,
in which case it errors and leaves the queue unchanged. -/
def Queue.join (q : Queue) (player : String) : Except Error Unit × Queue :=
  if !(q.queue.contains player) then
    (Except.ok (), { q with queue := q.queue ++ [player] })
  else
    (Except.error (Error.AlreadyInQueueError "The player is already in the queue"), q)

/-- `Queue::quit`: `self.queue.retain(|p| *p != player)`. -/
def Queue.quit (q : Queue) (player : String) : Queue :=
  { q with queue := q.queue.filter (fun p => p != player) }

/-- `Queue::nextone`: `self.queue.pop_front()`. -/
def Queue.nextone (q : Queue) : Option String × Queue :=
  match q.queue with
  | [] => (none, q)
  | p :: rest => (some p, { q with queue := rest })

/-- `Queue::nextone_to_back`: pop the front player and, when present, re-join
them (propagating a join error while keeping the popped state). -/
def Queue.nextone_to_back (q : Queue) : Except Error (Option String) × Queue :=
  match q.nextone with
  | (some p, q1) =>
    match q1.join p with
    | (Except.ok _, q2) => (Except.ok (some p), q2)
    | (Except.error e, q2) => (Except.error e, q2)
  | (none, q1) => (Except.ok none, q1)

/-- The `for _ in 0..self.players` loop of `Queue::next_group`, with the
accumulated `result` vector. -/
def Queue.next_group_loop : Nat → Queue → List String → List String × Queue
  | 0, q, acc => (acc, q)
  | n + 1, q, acc =>
    match q.nextone with
    | (some p, q1) => Queue.next_group_loop n q1 (acc ++ [p])
    | (none, q1) => Queue.next_group_loop n q1 acc

/-- `Queue::next_group`: pop up to `players` members, collecting them. -/
def Queue.next_group (q : Queue) : List String × Queue :=
  Queue.next_group_loop q.players q []

/-- The `for _ in 0..self.players` loop of `Queue::next_group_to_back`: each
iteration pops the front member (if any), records it, and re-joins it, the
`?` operator aborting the loop on a join error (state mutations kept). -/
def Queue.next_group_to_back_loop :
    Nat → Queue → List String → Except Error (List String) × Queue
  | 0, q, acc => (Except.ok acc, q)
  | n + 1, q, acc =>
    match q.nextone with
    | (some p, q1) =>
      match q1.join p with
      | (Except.ok _, q2) => Queue.next_group_to_back_loop n q2 (acc ++ [p])
      | (Except.error e, q2) => (Except.error e, q2)
    | (none, q1) => Queue.next_group_to_back_loop n q1 acc

/-- `Queue::next_group_to_back`. -/
def Queue.next_group_to_back (q : Queue) : Except Error (List String) × Queue :=
  Queue.next_group_to_back_loop q.players q []

/-- `Queue::get_queue`: a snapshot of the member sequence. -/
def Queue.get_queue (q : Queue) : List String :=
  q.queue

/-- `Queue::format_queue`: push every member followed by a space, then pop the
final character (a no-op on the empty string). -/
def Queue.format_queue (q : Queue) : String :=
  let s := q.queue.foldl (fun s p => s ++ p ++ " ") ""
  s.dropRight 1

/-- The cyclic prefix of a member list: the sequence of heads collected when
repeatedly popping the front and re-appending it, `n` times.  This is the
value `result` accumulated by `Queue::next_group_to_back` on a duplicate-free
queue. -/
def cycTake : Nat → List String → List String
  | 0, _ => []
  | _ + 1, [] => []
  | n + 1, p :: rest => p :: cycTake n (rest ++ [p])

/-- One public mutating operation of the crate, for stating the reachable-state
invariant. -/
inductive Op where
  | join (p : String)
  | quit (p : String)
  | nextone
  | nextone_to_back
  | next_group
  | next_group_to_back
  deriving DecidableEq

/-- Apply one operation to the queue state, discarding the returned value. -/
def Queue.applyOp (q : Queue) : Op → Queue
  | Op.join p => (q.join p).2
  | Op.quit p => q.quit p
  | Op.nextone => q.nextone.2
  | Op.nextone_to_back => q.nextone_to_back.2
  | Op.next_group => q.next_group.2
  | Op.next_group_to_back => q.next_group_to_back.2

/-- Run a sequence of operations from a starting state. -/
def Queue.runOps (q : Queue) (ops : List Op) : Queue :=
  ops.foldl Queue.applyOp q

lemma join_not_mem {q : Queue} {p : String} (h : p ∉ q.queue) :
    q.join p = (Except.ok (), { q with queue := q.queue ++ [p] }) := by
  simp [Queue.join, h]

lemma join_mem {q : Queue} {p : String} (h : p ∈ q.queue) :
    q.join p
      = (Except.error (Error.AlreadyInQueueError "The player is already in the queue"), q) := by
  simp [Queue.join, h]

lemma cycTake_nil (n : Nat) : cycTake n [] = [] := by
  cases n <;> rfl

lemma cycTake_length (n : Nat) :
    ∀ {l : List String}, l ≠ [] → (cycTake n l).length = n := by
  induction n with
  | zero => intro l _; rfl
  | succ n ih =>
    intro l hl
    cases l with
    | nil => exact absurd rfl hl
    | cons p rest => simp [cycTake, ih (l := rest ++ [p]) (by simp)]

lemma cycTake_take (n : Nat) :
    ∀ {l : List String}, n ≤ l.length → cycTake n l = l.take n := by
  induction n with
  | zero => intro l _; rfl
  | succ n ih =>
    intro l h
    cases l with
    | nil => simp at h
    | cons p rest =>
      have h1 : n ≤ rest.length := by simpa using h
      have h2 : n ≤ (rest ++ [p]).length := by simp; omega
      simp [cycTake, ih h2, List.take_append_of_le_length h1]

lemma cycTake_add (a b : Nat) :
    ∀ (l : List String), cycTake (a + b) l = cycTake a l ++ cycTake b (l.rotate a) := by
  induction a with
  | zero => intro l; simp [cycTake, List.rotate_zero]
  | succ a ih =>
    intro l
    cases l with
    | nil => simp [cycTake_nil]
    | cons p rest =>
      have hs : a + 1 + b = (a + b) + 1 := by omega
      rw [hs]
      simp [cycTake, List.rotate_cons_succ, ih (rest ++ [p])]

lemma cycTake_ge {l : List String} {n : Nat} (h : l.length ≤ n) :
    cycTake n l = l ++ cycTake (n - l.length) l := by
  conv_lhs => rw [show n = l.length + (n - l.length) by omega]
  rw [cycTake_add, cycTake_take l.length (le_refl _), List.take_length, List.rotate_length]

lemma nodup_append_one {l : List String} {p : String} (hnd : l.Nodup) (hp : p ∉ l) :
    (l ++ [p]).Nodup := by
  simp [List.nodup_append, hnd, hp]

lemma next_group_loop_eq (n : Nat) :
    ∀ (q : Queue) (acc : List String),
      Queue.next_group_loop n q acc
        = (acc ++ q.queue.take n, { q with queue := q.queue.drop n }) := by
  induction n with
  | zero => intro q acc; simp [Queue.next_group_loop]
  | succ n ih =>
    intro q acc
    rcases hq : q.queue with _ | ⟨p, rest⟩
    · simp [Queue.next_group_loop, Queue.nextone, hq, ih, hq]
    · simp [Queue.next_group_loop, Queue.nextone, hq, ih]

lemma next_group_to_back_loop_eq (n : Nat) :
    ∀ (q : Queue) (acc : List String), q.queue.Nodup →
      Queue.next_group_to_back_loop n q acc
        = (Except.ok (acc ++ cycTake n q.queue), { q with queue := q.queue.rotate n }) := by
  induction n with
  | zero => intro q acc _; simp [Queue.next_group_to_back_loop, cycTake, List.rotate_zero]
  | succ n ih =>
    intro q acc hnd
    rcases hq : q.queue with _ | ⟨p, rest⟩
    · have h2 := ih q acc hnd
      simp [Queue.next_group_to_back_loop, Queue.nextone, hq, h2, cycTake_nil]
    · rw [hq] at hnd
      have hp : p ∉ rest := (List.nodup_cons.mp hnd).1
      have hrot : (rest ++ [p]).Nodup := nodup_append_one (List.nodup_cons.mp hnd).2 hp
      have hj := join_not_mem (q := { q with queue := rest }) (p := p) hp
      have h2 := ih { q with queue := rest ++ [p] } (acc ++ [p]) hrot
      simp [Queue.next_group_to_back_loop, Queue.nextone, hq, hj, h2, cycTake,
    List.rotate_cons_succ]

lemma nextone_to_back_queue_eq (q : Queue) (hnd : q.queue.Nodup) :
    (q.nextone_to_back).2.queue = q.queue.rotate 1 := by
  rcases hq : q.queue with _ | ⟨p, rest⟩
  · simp [Queue.nextone_to_back, Queue.nextone, hq, List.rotate_nil]
  · rw [hq] at hnd
    have hp : p ∉ rest := (List.nodup_cons.mp hnd).1
    have hj := join_not_mem (q := { q with queue := rest }) (p := p) hp
    simp [Queue.nextone_to_back, Queue.nextone, hq, hj, List.rotate_cons_succ]

lemma applyOp_nodup {q : Queue} (hnd : q.queue.Nodup) (op : Op) :
    (q.applyOp op).queue.Nodup := by
  cases op with
  | join p =>
    by_cases h : p ∈ q.queue
    · simp [Queue.applyOp, join_mem h, hnd]
    · simp [Queue.applyOp, join_not_mem h]
      exact nodup_append_one hnd h
  | quit p =>
    simp only [Queue.applyOp, Queue.quit]
    exact hnd.filter _
  | nextone =>
    rcases hq : q.queue with _ | ⟨p, rest⟩
    · simp only [Queue.applyOp, Queue.nextone, hq]
      exact List.nodup_nil
    · rw [hq] at hnd
      simpa [Queue.applyOp, Queue.nextone, hq] using (List.nodup_cons.mp hnd).2
  | nextone_to_back =>
    rw [Queue.applyOp, nextone_to_back_queue_eq q hnd]
    exact List.nodup_rotate.mpr hnd
  | next_group =>
    simp only [Queue.applyOp, Queue.next_group, next_group_loop_eq]
    exact hnd.sublist (List.drop_sublist _ _)
  | next_group_to_back =>
    simp only [Queue.applyOp, Queue.next_group_to_back,
      next_group_to_back_loop_eq q.players q [] hnd]
    exact List.nodup_rotate.mpr hnd

lemma runOps_nodup (ops : List Op) :
    ∀ {q : Queue}, q.queue.Nodup → (q.runOps ops).queue.Nodup := by
  induction ops with
  | nil => intro q hnd; exact hnd
  | cons op ops ih =>
    intro q hnd
    exact ih (applyOp_nodup hnd op)

lemma new_ok {g : String} {n : Nat} {q0 : Queue} (h : Queue.new g n = Except.ok q0) :
    q0 = { game := g, players := n, queue := [] } := by
  by_cases hn : n = 0
  · simp [Queue.new, hn] at h
  · simp [Queue.new, hn] at h
    exact h.symm

/-- C2 counterexample: `format_queue` on members `["x", "y"]` does not return
`"x, y"`; the source separates members with a single space, not comma-space. -/
theorem format_queue_comma_cex :
    Queue.format_queue ⟨"g", 2, ["x", "y"]⟩ ≠ "x, y" := by decide

/-- C2 amended: `format_queue` joins the members with the single-space
separator `" "` and no trailing separator: on members `["x", "y"]` it returns
`"x y"`, and on the empty queue it returns `""`. -/
theorem format_queue_space_spec :
    Queue.format_queue ⟨"g", 2, ["x", "y"]⟩ = "x y" ∧
    Queue.format_queue ⟨"g", 2, []⟩ = "" := by decide

/-- C3: `join` of a player already anywhere in `members` returns the
`AlreadyInQueueError` and leaves the member sequence unchanged; `join` of an
absent player succeeds and appends it at the tail. -/
theorem join_spec (q : Queue) (p : String) :
    (p ∈ q.queue →
      q.join p
        = (Except.error (Error.AlreadyInQueueError "The player is already in the queue"), q)) ∧
    (p ∉ q.queue →
      q.join p = (Except.ok (), { q with queue := q.queue ++ [p] })) :=
  ⟨fun h => join_mem h, fun h => join_not_mem h⟩

/-- C3 witness: on the queue `["a"]`, joining `"a"` errors and leaves the queue
unchanged, while joining `"b"` appends it at the tail. -/
theorem join_spec_witness :
    Queue.join ⟨"t", 2, ["a"]⟩ "a"
        = (Except.error (Error.AlreadyInQueueError "The player is already in the queue"),
           ⟨"t", 2, ["a"]⟩) ∧
    Queue.join ⟨"t", 2, ["a"]⟩ "b" = (Except.ok (), ⟨"t", 2, ["a", "b"]⟩) :=
  ⟨(join_spec ⟨"t", 2, ["a"]⟩ "a").1 (by decide),
   (join_spec ⟨"t", 2, ["a"]⟩ "b").2 (by decide)⟩

/-- C4: `next_group` returns the first `min (players, length)` members in their
original head order and leaves the `length - players` remaining members in
their original relative order. -/
theorem next_group_spec (q : Queue) :
    (q.next_group).1 = q.queue.take q.players ∧
    (q.next_group).1.length = min q.players q.queue.length ∧
    (q.next_group).2.queue = q.queue.drop q.players ∧
    (q.next_group).2.queue.length = q.queue.length - q.players := by
  have h := next_group_loop_eq q.players q []
  simp [Queue.next_group, h]

/-- C5: on a duplicate-free queue with at least `players` members,
`next_group_to_back` returns the first `players` members in their original
order, and afterwards those members appear in that same relative order at the
tail, the previously-following members having shifted to the front. -/
theorem next_group_to_back_full_spec (q : Queue) (hnd : q.queue.Nodup)
    (hge : q.players ≤ q.queue.length) :
    q.next_group_to_back
      = (Except.ok (q.queue.take q.players),
         { q with queue := q.queue.drop q.players ++ q.queue.take q.players }) := by
  rw [Queue.next_group_to_back, next_group_to_back_loop_eq q.players q [] hnd,
    cycTake_take q.players hge, List.rotate_eq_drop_append_take hge]
  simp

/-- C5 witness: the spec scenario `Construct("trivia", 2)` with members
`a, b, c`: the first call returns `[a, b]` and the queue becomes `[c, a, b]`. -/
theorem next_group_to_back_full_spec_witness :
    Queue.next_group_to_back ⟨"trivia", 2, ["a", "b", "c"]⟩
      = (Except.ok ["a", "b"], ⟨"trivia", 2, ["c", "a", "b"]⟩) :=
  next_group_to_back_full_spec ⟨"trivia", 2, ["a", "b", "c"]⟩ (by decide) (by decide)

/-- C6: construction with group size `0` fails with `TooLessPlayersError`, and
with any group size `n ≥ 1` (in the `u8` input range) succeeds with an empty
member list. -/
theorem new_spec (g : String) (n : Nat) (h1 : 1 ≤ n) (h2 : n < 256) :
    Queue.new g 0
        = Except.error (Error.TooLessPlayersError "`players` should be at least 1") ∧
    Queue.new g n = Except.ok { game := g, players := n, queue := [] } := by
  constructor
  · rfl
  · have hn : n ≠ 0 := by omega
    simp [Queue.new, hn]

/-- C6 witness: constructing with group size 1 succeeds with no members, while
group size 0 fails. -/
theorem new_spec_witness :
    Queue.new "trivia" 0
        = Except.error (Error.TooLessPlayersError "`players` should be at least 1") ∧
    Queue.new "trivia" 1 = Except.ok ⟨"trivia", 1, []⟩ :=
  new_spec "trivia" 1 (by decide) (by decide)

/-- C7: on a duplicate-free queue, `nextone_to_back` returns `none` and changes
nothing when the queue is empty, and on members `p :: rest` it returns `p` and
leaves the members as `rest ++ [p]`. -/
theorem nextone_to_back_spec (q : Queue) (hnd : q.queue.Nodup) :
    (q.queue = [] → q.nextone_to_back = (Except.ok none, q)) ∧
    (∀ p rest, q.queue = p :: rest →
      q.nextone_to_back = (Except.ok (some p), { q with queue := rest ++ [p] })) := by
  constructor
  · intro h
    simp [Queue.nextone_to_back, Queue.nextone, h]
  · intro p rest h
    rw [h] at hnd
    have hp : p ∉ rest := (List.nodup_cons.mp hnd).1
    have hj := join_not_mem (q := { q with queue := rest }) (p := p) hp
    simp [Queue.nextone_to_back, Queue.nextone, h, hj]

/-- C7 witness: on the queue `["a", "b"]` the rotation returns `"a"` and leaves
`["b", "a"]`. -/
theorem nextone_to_back_spec_witness :
    Queue.nextone_to_back ⟨"t", 2, ["a", "b"]⟩
      = (Except.ok (some "a"), ⟨"t", 2, ["b", "a"]⟩) :=
  (nextone_to_back_spec ⟨"t", 2, ["a", "b"]⟩ (by decide)).2 "a" ["b"] rfl

/-- C1 counterexample: with group size 3 and members `["a", "b"]` (so
`0 < m = 2 < 3 = groupSize`), the queue left by `next_group_to_back` is
`["b", "a"]`, not the original order `["a", "b"]`: the loop does not stop when
every member has been rotated once, because each rotation re-appends the member
before the next pop, so the queue never becomes empty. -/
theorem next_group_to_back_small_cex :
    (Queue.next_group_to_back ⟨"t", 3, ["a", "b"]⟩).2.queue ≠ ["a", "b"] := by decide

/-- C1 amended: on a duplicate-free non-empty queue with fewer members than the
group size, `next_group_to_back` performs the pop-and-re-append rotation exactly
`players` times (never stopping early, since re-appending keeps the queue
non-empty): it returns `players` entries, every member is rotated (hence
returned) at least once, the final queue is the original rotated left by
`players` steps, and the final order equals the original when the member count
divides `players` (not in general). -/
theorem next_group_to_back_small_spec (q : Queue) (hnd : q.queue.Nodup)
    (hne : q.queue ≠ []) (hlt : q.queue.length < q.players) :
    ∃ r, q.next_group_to_back
        = (Except.ok r, { q with queue := q.queue.rotate q.players }) ∧
      r.length = q.players ∧
      (∀ x ∈ q.queue, x ∈ r) ∧
      (q.queue.length ∣ q.players → q.queue.rotate q.players = q.queue) := by
  refine ⟨cycTake q.players q.queue, ?_, cycTake_length q.players hne, ?_, ?_⟩
  · rw [Queue.next_group_to_back, next_group_to_back_loop_eq q.players q [] hnd]
    simp
  · intro x hx
    rw [cycTake_ge (le_of_lt hlt)]
    exact List.mem_append_left _ hx
  · intro hdvd
    have hmod : q.players % q.queue.length = 0 := Nat.mod_eq_zero_of_dvd hdvd
    rw [← List.rotate_mod, hmod, List.rotate_zero]

/-- C1 amended witness: group size 4 on members `["a", "b", "c"]` returns 4
entries covering every member and leaves the queue rotated by 4 steps. -/
theorem next_group_to_back_small_spec_witness :
    ∃ r, Queue.next_group_to_back ⟨"v", 4, ["a", "b", "c"]⟩
        = (Except.ok r, ⟨"v", 4, (["a", "b", "c"] : List String).rotate 4⟩) ∧
      r.length = 4 ∧
      (∀ x ∈ (["a", "b", "c"] : List String), x ∈ r) ∧
      ((["a", "b", "c"] : List String).length ∣ 4 →
        (["a", "b", "c"] : List String).rotate 4 = ["a", "b", "c"]) :=
  next_group_to_back_small_spec ⟨"v", 4, ["a", "b", "c"]⟩ (by decide) (by decide) (by decide)

/-- C8: starting from any successfully constructed queue (which is empty),
every sequence of `join`, `quit`, `nextone`, `nextone_to_back`, `next_group`
and `next_group_to_back` operations leaves a member sequence with no duplicate
identifier. -/
theorem nodup_invariant (g : String) (n : Nat) (q0 : Queue)
    (h : Queue.new g n = Except.ok q0) (ops : List Op) :
    (q0.runOps ops).queue.Nodup := by
  have h0 : q0.queue.Nodup := by
    rw [new_ok h]
    exact List.nodup_nil
  exact runOps_nodup ops h0

/-- C8 witness: a concrete run mixing all six operations from a freshly
constructed queue ends with duplicate-free members. -/
theorem nodup_invariant_witness :
    ((Queue.runOps ⟨"t", 2, []⟩
        [Op.join "a", Op.join "b", Op.join "c", Op.nextone_to_back,
         Op.next_group_to_back, Op.quit "b", Op.join "d", Op.nextone,
         Op.next_group]).queue).Nodup :=
  nodup_invariant "t" 2 ⟨"t", 2, []⟩ rfl _

/-- C9: on a duplicate-free queue (which includes every state reachable from
construction), `nextone_to_back` and `next_group_to_back` never return an
error: the `AlreadyInQueueError` branch of their internal re-join is
unreachable, because the popped player is no longer in the queue when
re-joined. -/
theorem to_back_never_errors (q : Queue) (hnd : q.queue.Nodup) :
    (∃ r, (q.nextone_to_back).1 = Except.ok r) ∧
    (∃ r, (q.next_group_to_back).1 = Except.ok r) := by
  constructor
  · rcases hq : q.queue with _ | ⟨p, rest⟩
    · exact ⟨none, by simp [Queue.nextone_to_back, Queue.nextone, hq]⟩
    · rw [hq] at hnd
      have hp : p ∉ rest := (List.nodup_cons.mp hnd).1
      have hj := join_not_mem (q := { q with queue := rest }) (p := p) hp
      exact ⟨some p, by simp [Queue.nextone_to_back, Queue.nextone, hq, hj]⟩
  · refine ⟨cycTake q.players q.queue, ?_⟩
    rw [Queue.next_group_to_back, next_group_to_back_loop_eq q.players q [] hnd]
    simp

/-- C9 witness: on the concrete duplicate-free queue `["a", "b"]` both
operations return `Except.ok`. -/
theorem to_back_never_errors_witness :
    (∃ r, (Queue.nextone_to_back ⟨"t", 3, ["a", "b"]⟩).1 = Except.ok r) ∧
    (∃ r, (Queue.next_group_to_back ⟨"t", 3, ["a", "b"]⟩).1 = Except.ok r) :=
  to_back_never_errors ⟨"t", 3, ["a", "b"]⟩ (by decide)

/-- C10: on a duplicate-free non-empty queue, `next_group_to_back` returns
exactly `players` entries (never fewer); when the member count is below
`players` some player occurs more than once in the result, and the final queue
is the original rotated left by `players mod length` positions. -/
theorem next_group_to_back_exact_spec (q : Queue) (hnd : q.queue.Nodup)
    (hne : q.queue ≠ []) :
    ∃ r, q.next_group_to_back
        = (Except.ok r,
           { q with queue := q.queue.drop (q.players % q.queue.length)
               ++ q.queue.take (q.players % q.queue.length) }) ∧
      r.length = q.players ∧
      (q.queue.length < q.players → ∃ p, 2 ≤ r.count p) := by
  refine ⟨cycTake q.players q.queue, ?_, cycTake_length q.players hne, ?_⟩
  · rw [Queue.next_group_to_back, next_group_to_back_loop_eq q.players q [] hnd]
    have hlen : 0 < q.queue.length := List.length_pos.mpr hne
    rw [← List.rotate_mod,
      List.rotate_eq_drop_append_take (le_of_lt (Nat.mod_lt _ hlen))]
    simp
  · intro hlt
    obtain ⟨p, rest, hq⟩ : ∃ p rest, q.queue = p :: rest := by
      rcases hq : q.queue with _ | ⟨p, rest⟩
      · exact absurd hq hne
      · exact ⟨p, rest, rfl⟩
    refine ⟨p, ?_⟩
    rw [cycTake_ge (le_of_lt hlt), List.count_append]
    have hk : ∃ k, q.players - q.queue.length = k + 1 := by
      refine ⟨q.players - q.queue.length - 1, ?_⟩
      omega
    obtain ⟨k, hk⟩ := hk
    have hmem1 : p ∈ q.queue := by
      rw [hq]
      exact List.mem_cons_self p rest
    have hmem2 : p ∈ cycTake (q.players - q.queue.length) q.queue := by
      rw [hk, hq, cycTake]
      exact List.mem_cons_self _ _
    have hc1 : 0 < q.queue.count p := List.count_pos_iff.mpr hmem1
    have hc2 : 0 < (cycTake (q.players - q.queue.length) q.queue).count p :=
      List.count_pos_iff.mpr hmem2
    omega

/-- C10 witness: group size 3 on members `["a", "b"]` returns 3 entries with
`"a"` twice and leaves the queue rotated to `["b", "a"]`. -/
theorem next_group_to_back_exact_spec_witness :
    ∃ r, Queue.next_group_to_back ⟨"u", 3, ["a", "b"]⟩
        = (Except.ok r, ⟨"u", 3, ["b", "a"]⟩) ∧
      r.length = 3 ∧
      ((["a", "b"] : List String).length < 3 → ∃ p, 2 ≤ r.count p) :=
  next_group_to_back_exact_spec ⟨"u", 3, ["a", "b"]⟩ (by decide) (by decide)

